import Mathlib

/-!
Formal model of `seminars/seminar-9-gpt/transformers.ipynb`: a character-level
GPT language model (tokenizer, train/validation split, batch sampler, causal
self-attention, transformer blocks, forward pass, autoregressive generation).
Machine floats are modelled by real numbers, the framework RNG
(`torch.randint`, `torch.multinomial`) is modelled by explicit oracles, and
dropout layers are modelled in evaluation mode, where `nn.Dropout` is the
identity.
-/

namespace GPT

/-! ### Tokenizer (`chars`, `stoi`, `itos`, `encode`, `decode`) -/

/-- Sorted list of the unique characters occurring in the corpus:
`chars = sorted(list(set(text)))`. -/
def charsOf (text : List Char) : List Char :=
  (text.dedup).mergeSort (fun a b => a ≤ b)

/-- Lookup in `stoi = {ch: i for i, ch in enumerate(chars)}`; a character
absent from the vocabulary raises `KeyError`, modelled by `none`. -/
def stoi (text : List Char) (c : Char) : Option ℕ :=
  if c ∈ charsOf text then some ((charsOf text).indexOf c) else none

/-- Lookup in `itos = {i: ch for i, ch in enumerate(chars)}`. -/
def itos (text : List Char) (i : ℕ) : Option Char :=
  (charsOf text).get? i

/-- `encode = lambda s: [stoi[c] for c in s]`; the comprehension stops with a
`KeyError` (`none`) at the first character outside the vocabulary. -/
def encode (text : List Char) : List Char → Option (List ℕ)
  | [] => some []
  | c :: cs =>
    match stoi text c, encode text cs with
    | some i, some rest => some (i :: rest)
    | _, _ => none

/-- `decode = lambda l: ''.join([itos[i] for i in l])`. -/
def decode (text : List Char) : List ℕ → Option (List Char)
  | [] => some []
  | i :: rest =>
    match itos text i, decode text rest with
    | some c, some cs => some (c :: cs)
    | _, _ => none

/-! ### Train/validation split (`n = int(0.9*len(data))`) -/

/-- Split point `n = int(0.9*len(data))`: the floor of `0.9 · len`, written
with exact natural-number arithmetic. -/
def splitIndex (len : ℕ) : ℕ := 9 * len / 10

/-- `train_data = data[:n]`. -/
def train_data (data : List ℕ) : List ℕ := data.take (splitIndex data.length)

/-- `val_data = data[n:]`. -/
def val_data (data : List ℕ) : List ℕ := data.drop (splitIndex data.length)

/-! ### Batch sampler (`get_batch`) -/

/-- `data = train_data if split == 'train' else val_data`. -/
def batchData (trainD valD : List ℕ) (split : String) : List ℕ :=
  if split = "train" then trainD else valD

/-- `get_batch`: the offsets `ix` come from
`torch.randint(len(data) - block_size, (batch_size,))`, an external RNG
oracle; row `i` of `x` is `data[ix[i] : ix[i]+block_size]` and row `i` of `y`
is `data[ix[i]+1 : ix[i]+block_size+1]`. -/
def get_batch (trainD valD : List ℕ) (block_size : ℕ) (split : String)
    (ix : List ℕ) : List (List ℕ) × List (List ℕ) :=
  let data := batchData trainD valD split
  (ix.map fun i => (data.drop i).take block_size,
   ix.map fun i => (data.drop (i + 1)).take block_size)

/-! ### Construction-time layer sizes (`MultiHeadAttention.__init__`,
`Block.__init__`) -/

/-- Layer sizes recorded by `MultiHeadAttention.__init__`. -/
structure MHAShape where
  num_heads : ℕ
  head_size : ℕ
  proj_in : ℕ
  proj_out : ℕ
  deriving DecidableEq

/-- `MultiHeadAttention.__init__(num_heads, head_size)`: `num_heads` head
modules and `self.proj = nn.Linear(head_size * num_heads, n_embd)`. -/
def MultiHeadAttention.init (num_heads head_size n_embd : ℕ) : MHAShape :=
  ⟨num_heads, head_size, head_size * num_heads, n_embd⟩

/-- `Block.__init__(n_embd, n_head)`: `head_size = n_embd // n_head` (Python
floor division, which raises `ZeroDivisionError` when `n_head == 0`), then
`MultiHeadAttention(n_head, head_size)`.  The source contains no divisibility
assertion. -/
def Block.init (n_embd n_head : ℕ) : Except String MHAShape :=
  if n_head = 0 then .error "ZeroDivisionError"
  else .ok (MultiHeadAttention.init n_head (n_embd / n_head) n_embd)

/-! ### Real-valued tensor model of the network.

Tensors are total functions over `Fin`-indexed dimensions.  A batched input
`(B, T, C)` is a function `Fin B → Fin T → Fin C → ℝ`, and batched operations
act on each batch row independently, exactly as broadcast `torch` matrix
operations do. -/

noncomputable section

/-- `nn.Linear(n, m, bias=False)` applied to one vector. -/
def linearNB {m n : ℕ} (W : Fin m → Fin n → ℝ) (x : Fin n → ℝ) : Fin m → ℝ :=
  fun i => ∑ j, W i j * x j

/-- `nn.Linear(n, m)` with bias, applied to one vector. -/
def linearB {m n : ℕ} (W : Fin m → Fin n → ℝ) (b : Fin m → ℝ)
    (x : Fin n → ℝ) : Fin m → ℝ :=
  fun i => (∑ j, W i j * x j) + b i

/-- Entry `(i, j)` of the registered buffer
`torch.tril(torch.ones(block_size, block_size))`; slicing `tril[:T, :T]` keeps
exactly these entries for `i, j < T ≤ block_size`. -/
def tril (i j : ℕ) : ℚ := if j ≤ i then 1 else 0

/-- Exponential extended with `exp(-∞) = 0`: the causal mask writes
`float('-inf')` (modelled by `none`) into the affinity matrix, and `F.softmax`
turns those entries into weight `0`. -/
def expOf : Option ℝ → ℝ
  | none => 0
  | some a => Real.exp a

/-- Parameters of `Head.__init__`: three bias-free linear maps of width
`head_size`. -/
structure HeadParams (C hs : ℕ) where
  key : Fin hs → Fin C → ℝ
  query : Fin hs → Fin C → ℝ
  value : Fin hs → Fin C → ℝ

variable {C hs nh V bs : ℕ}

/-- Raw affinities
`wei = q @ k.transpose(-2,-1) * k.shape[-1]**-0.5` (the scale
`head_size ** -0.5` is `(√head_size)⁻¹`). -/
def Head.wei {T : ℕ} (p : HeadParams C hs) (x : Fin T → Fin C → ℝ)
    (t s : Fin T) : ℝ :=
  (∑ u, linearNB p.query (x t) u * linearNB p.key (x s) u) * (Real.sqrt hs)⁻¹

/-- `wei = wei.masked_fill(self.tril[:T, :T] == 0, float('-inf'))`; `none`
models the `-∞` entries. -/
def Head.weiMasked {T : ℕ} (p : HeadParams C hs) (x : Fin T → Fin C → ℝ)
    (t s : Fin T) : Option ℝ :=
  if tril t s = 0 then none else some (Head.wei p x t s)

/-- `wei = F.softmax(wei, dim=-1)`, row-wise over the masked affinities. -/
def Head.weiSoft {T : ℕ} (p : HeadParams C hs) (x : Fin T → Fin C → ℝ)
    (t s : Fin T) : ℝ :=
  expOf (Head.weiMasked p x t s) / ∑ u, expOf (Head.weiMasked p x t u)

/-- `Head.forward` on one batch row (dropout in evaluation mode):
`out = wei @ v`. -/
def Head.forward {T : ℕ} (p : HeadParams C hs) (x : Fin T → Fin C → ℝ) :
    Fin T → Fin hs → ℝ :=
  fun t u => ∑ s, Head.weiSoft p x t s * linearNB p.value (x s) u

/-- Parameters of `MultiHeadAttention.__init__`: `num_heads` heads and the
output projection `nn.Linear(head_size * num_heads, n_embd)`. -/
structure MHAParams (C nh hs : ℕ) where
  heads : Fin nh → HeadParams C hs
  projW : Fin C → Fin (nh * hs) → ℝ
  projB : Fin C → ℝ

/-- `torch.cat([h(x) for h in self.heads], dim=-1)`: flat feature `f` reads
coordinate `f % head_size` of head number `f / head_size`. -/
def catHeads {T : ℕ} (outs : Fin nh → Fin T → Fin hs → ℝ) (t : Fin T)
    (f : Fin (nh * hs)) : ℝ :=
  outs
    ⟨f / hs, by
      have hf := f.isLt
      have hhs : 0 < hs := by
        rcases Nat.eq_zero_or_pos hs with h0 | h0
        · subst h0; omega
        · exact h0
      exact (Nat.div_lt_iff_lt_mul hhs).mpr (by omega)⟩
    t
    ⟨f % hs, by
      have hf := f.isLt
      have hhs : 0 < hs := by
        rcases Nat.eq_zero_or_pos hs with h0 | h0
        · subst h0; omega
        · exact h0
      exact Nat.mod_lt _ hhs⟩

/-- `MultiHeadAttention.forward` on one batch row (dropout in evaluation
mode): concatenate the head outputs, then `self.proj`. -/
def MultiHeadAttention.forward {T : ℕ} (p : MHAParams C nh hs)
    (x : Fin T → Fin C → ℝ) : Fin T → Fin C → ℝ :=
  fun t => linearB p.projW p.projB
    (catHeads (fun u => Head.forward (p.heads u) x) t)

/-- Parameters of `FeedFoward.__init__` (source spelling): expansion to
`4 * n_embd`, contraction back to `n_embd`. -/
structure FFParams (C : ℕ) where
  w1 : Fin (4 * C) → Fin C → ℝ
  b1 : Fin (4 * C) → ℝ
  w2 : Fin C → Fin (4 * C) → ℝ
  b2 : Fin C → ℝ

/-- `FeedFoward.forward`: `Linear(C, 4C)`, `ReLU`, `Linear(4C, C)`, dropout
(evaluation mode). -/
def FeedFoward.forward (p : FFParams C) (x : Fin C → ℝ) : Fin C → ℝ :=
  linearB p.w2 p.b2 (fun i => max (linearB p.w1 p.b1 x i) 0)

/-- Scale and shift parameters of `nn.LayerNorm(n_embd)`. -/
structure LNParams (C : ℕ) where
  gamma : Fin C → ℝ
  beta : Fin C → ℝ

/-- `nn.LayerNorm(C)` over the feature dimension, with the default
`eps = 1e-5`. -/
def layerNorm (p : LNParams C) (x : Fin C → ℝ) : Fin C → ℝ :=
  fun c =>
    p.gamma c * ((x c - (∑ u, x u) / C) /
      Real.sqrt ((∑ u, (x u - (∑ w, x w) / C) ^ 2) / C + 1e-5)) + p.beta c

/-- Parameters of one transformer `Block`. -/
structure BlockParams (C nh hs : ℕ) where
  sa : MHAParams C nh hs
  ffwd : FFParams C
  ln1 : LNParams C
  ln2 : LNParams C

/-- `Block.forward` on one batch row: pre-norm residual attention followed by
pre-norm residual feed-forward. -/
def Block.forward {T : ℕ} (bp : BlockParams C nh hs)
    (x : Fin T → Fin C → ℝ) : Fin T → Fin C → ℝ :=
  let x1 := fun t c =>
    x t c + MultiHeadAttention.forward bp.sa (fun u => layerNorm bp.ln1 (x u)) t c
  fun t c => x1 t c + FeedFoward.forward bp.ffwd (layerNorm bp.ln2 (x1 t)) c

/-- Parameters of `GPTLanguageModel.__init__`. -/
structure GPTParams (V bs C nh hs : ℕ) where
  token_embedding_table : Fin V → Fin C → ℝ
  position_embedding_table : Fin bs → Fin C → ℝ
  blocks : List (BlockParams C nh hs)
  ln_f : LNParams C
  lm_headW : Fin V → Fin C → ℝ
  lm_headB : Fin V → ℝ

/-- Body of `GPTLanguageModel.forward` for one batch row, producing the
per-position logits: token embedding plus positional embedding, the block
stack, the final layer norm and `lm_head`.  The hypothesis `hT` reflects that
`position_embedding_table` has only `block_size` rows. -/
def GPTLanguageModel.forwardRow (p : GPTParams V bs C nh hs) {T : ℕ}
    (hT : T ≤ bs) (idx : Fin T → Fin V) : Fin T → Fin V → ℝ :=
  let x0 : Fin T → Fin C → ℝ := fun t c =>
    p.token_embedding_table (idx t) c +
      p.position_embedding_table ⟨t, lt_of_lt_of_le t.isLt hT⟩ c
  let xb := p.blocks.foldl (fun x blk => Block.forward blk x) x0
  fun t => linearB p.lm_headW p.lm_headB (layerNorm p.ln_f (xb t))

/-- The `(B, T, vocab_size)` logits of the batched forward pass, as a
function. -/
def GPTLanguageModel.logits (p : GPTParams V bs C nh hs) {B T : ℕ}
    (hT : T ≤ bs) (idx : Fin B → Fin T → Fin V) :
    Fin B → Fin T → Fin V → ℝ :=
  fun b => GPTLanguageModel.forwardRow p hT (idx b)

/-- `F.cross_entropy(logits.view(B*T, C), targets.view(B*T))`: the mean over
all `B*T` flattened positions of `log-sum-exp(row) - row[target]`. -/
def GPTLanguageModel.loss (p : GPTParams V bs C nh hs) {B T : ℕ}
    (hT : T ≤ bs) (idx targets : Fin B → Fin T → Fin V) : ℝ :=
  (∑ b, ∑ t,
    (Real.log (∑ v, Real.exp (GPTLanguageModel.logits p hT idx b t v)) -
      GPTLanguageModel.logits p hT idx b t (targets b t))) / ((B : ℝ) * T)

/-- Shape of the logits value returned by `GPTLanguageModel.forward`: rank 3
when `targets is None`, rank 2 after `logits = logits.view(B*T, C)`. -/
inductive ReturnedLogits where
  | rank3 : List (List (List ℝ)) → ReturnedLogits
  | rank2 : List (List ℝ) → ReturnedLogits

/-- The rank-3 logits tensor, reified as nested lists. -/
def GPTLanguageModel.logitsTensor (p : GPTParams V bs C nh hs) {B T : ℕ}
    (hT : T ≤ bs) (idx : Fin B → Fin T → Fin V) : List (List (List ℝ)) :=
  List.ofFn fun b => List.ofFn fun t => List.ofFn fun v =>
    GPTLanguageModel.logits p hT idx b t v

/-- `GPTLanguageModel.forward`: with `targets=None` the returned logits keep
shape `(B, T, vocab_size)` and `loss = None`; with targets, the local
`logits` is reassigned to `logits.view(B*T, C)` (row-major flattening) before
being returned together with the cross-entropy loss. -/
def GPTLanguageModel.forward (p : GPTParams V bs C nh hs) {B T : ℕ}
    (hT : T ≤ bs) (idx : Fin B → Fin T → Fin V)
    (targets : Option (Fin B → Fin T → Fin V)) : ReturnedLogits × Option ℝ :=
  match targets with
  | none => (.rank3 (GPTLanguageModel.logitsTensor p hT idx), none)
  | some tg =>
    (.rank2 (GPTLanguageModel.logitsTensor p hT idx).flatten,
     some (GPTLanguageModel.loss p hT idx tg))

/-! ### Autoregressive generation (`GPTLanguageModel.generate`) -/

/-- `idx_cond = idx[:, -block_size:]`: the most recent `block_size` tokens of
the running sequence (all of it when it is shorter). -/
def idx_cond (block_size : ℕ) (idx : List (Fin V)) : List (Fin V) :=
  idx.drop (idx.length - block_size)

/-- Row-wise `F.softmax(logits, dim=-1)`. -/
def softmaxRow {n : ℕ} (z : Fin n → ℝ) : Fin n → ℝ :=
  fun v => Real.exp (z v) / ∑ u, Real.exp (z u)

/-- One generation step on the cropped context: forward pass with no targets,
last time step (`logits[:, -1, :]`, an index error — `none` — when the
context is empty), softmax, and `torch.multinomial` modelled by the `sample`
oracle. -/
def GPTLanguageModel.genStep (p : GPTParams V bs C nh hs)
    (sample : (Fin V → ℝ) → Fin V) (cond : List (Fin V))
    (hc : cond.length ≤ bs) : Option (Fin V) :=
  if h : 0 < cond.length then
    some (sample (softmaxRow
      (GPTLanguageModel.forwardRow p hc (fun t => cond.get t)
        ⟨cond.length - 1, by omega⟩)))
  else none

/-- `GPTLanguageModel.generate` on one batch row: `max_new_tokens` iterations
of crop, forward, softmax, sample, append (batch rows are processed
independently; `torch.multinomial` samples each row on its own). -/
def GPTLanguageModel.generate (p : GPTParams V bs C nh hs)
    (sample : (Fin V → ℝ) → Fin V) :
    List (Fin V) → ℕ → Option (List (Fin V))
  | idx, 0 => some idx
  | idx, n + 1 =>
    (GPTLanguageModel.genStep p sample (idx_cond bs idx)
        (by simp only [idx_cond, List.length_drop]; omega)).bind
      fun tok => GPTLanguageModel.generate p sample (idx ++ [tok]) n

/-! ### Evaluation and training as state transformers.

The module state owned by the model is its parameter set together with the
train/eval mode flag toggled by `model.train()` / `model.eval()`; gradient
bookkeeping belongs to the external autograd engine. -/

/-- Mutable module state: the parameters and the training-mode flag. -/
structure ModelState (V bs C nh hs : ℕ) where
  params : GPTParams V bs C nh hs
  training : Bool

/-- `model.eval()`. -/
def model_eval (s : ModelState V bs C nh hs) : ModelState V bs C nh hs :=
  { s with training := false }

/-- `model.train()`. -/
def model_train (s : ModelState V bs C nh hs) : ModelState V bs C nh hs :=
  { s with training := true }

/-- `estimate_loss` under `torch.no_grad()`: switch to evaluation mode,
average `eval_iters` batch losses for each split (batches of shape
`(B, block_size)` supplied by `get_batch`'s RNG, modelled as an oracle keyed
by split name and iteration), switch back to training mode and return the two
means.  The forward passes only read the parameters. -/
def estimate_loss {B eval_iters : ℕ} (s : ModelState V bs C nh hs)
    (batches : String → Fin eval_iters →
      (Fin B → Fin bs → Fin V) × (Fin B → Fin bs → Fin V)) :
    (ℝ × ℝ) × ModelState V bs C nh hs :=
  let s1 := model_eval s
  let meanLoss := fun split =>
    (∑ k, GPTLanguageModel.loss s1.params (le_refl bs)
      (batches split k).1 (batches split k).2) / (eval_iters : ℝ)
  let out := (meanLoss "train", meanLoss "val")
  let s2 := model_train s1
  (out, s2)

/-- `model.generate(...)` viewed as a state transformer: the body reads the
parameters but assigns no module attribute. -/
def generate_with_state (s : ModelState V bs C nh hs)
    (sample : (Fin V → ℝ) → Fin V) (idx : List (Fin V)) (n : ℕ) :
    Option (List (Fin V)) × ModelState V bs C nh hs :=
  (GPTLanguageModel.generate s.params sample idx n, s)

/-- One iteration of the training loop: forward on a `(B, block_size)` batch,
then `loss.backward(); optimizer.step()` — the optimizer `opt` is the
external collaborator and is the only writer of the parameters. -/
def training_step {B : ℕ} (s : ModelState V bs C nh hs)
    (opt : GPTParams V bs C nh hs → GPTParams V bs C nh hs)
    (xb yb : Fin B → Fin bs → Fin V) : ℝ × ModelState V bs C nh hs :=
  (GPTLanguageModel.loss s.params (le_refl bs) xb yb,
   { s with params := opt s.params })

/-! ### Concrete instances used by the closed witness theorems. -/

/-- All-zero parameters for the minimal configuration
`V = bs = C = nh = hs = 1` with an empty block stack. -/
def pZero : GPTParams 1 1 1 1 1 where
  token_embedding_table := fun _ _ => 0
  position_embedding_table := fun _ _ => 0
  blocks := []
  ln_f := ⟨fun _ => 1, fun _ => 0⟩
  lm_headW := fun _ _ => 0
  lm_headB := fun _ => 0

/-- Constant-zero `1 × 1` token batch. -/
def idx0 : Fin 1 → Fin 1 → Fin 1 := fun _ _ => 0

/-- Constant-zero `2 × 1` token batch. -/
def idx2 : Fin 2 → Fin 1 → Fin 1 := fun _ _ => 0

/-- Trivial sampling oracle over a one-token vocabulary. -/
def sample0 : (Fin 1 → ℝ) → Fin 1 := fun _ => 0

/-- All-zero single-head parameters with `C = hs = 1`. -/
def hZero : HeadParams 1 1 := ⟨fun _ _ => 0, fun _ _ => 0, fun _ _ => 0⟩

/-- All-zero length-2 input row for the head. -/
def x2 : Fin 2 → Fin 1 → ℝ := fun _ _ => 0

end

/-! ## Theorems -/

variable {C hs nh V bs : ℕ}

/-- C2, counterexample: with `n_embd = 5` and `n_head = 2` (not a divisor),
`Block.__init__` raises no fault at all — it returns the constructed sizes,
with internal width `head_size * num_heads = 4 < 5`. -/
theorem block_init_no_fault_cex :
    Block.init 5 2 = Except.ok ⟨2, 2, 4, 5⟩ ∧ ¬ (2 ∣ 5) ∧
      ∀ e, Block.init 5 2 ≠ Except.error e := by
  refine ⟨rfl, by decide, ?_⟩
  intro e h
  rw [show Block.init 5 2 = Except.ok (⟨2, 2, 4, 5⟩ : MHAShape) from rfl] at h
  exact Except.noConfusion h

/-- C2, amended: for every `n_head ≥ 1` that does not divide `n_embd`,
construction succeeds silently with `head_size = n_embd / n_head` (floor),
and the concatenated multi-head width `head_size * num_heads` is strictly
smaller than `n_embd`; the output projection still maps back to `n_embd`. -/
theorem block_init_silent_reduction (n_embd n_head : ℕ) (h0 : 0 < n_head)
    (hnd : ¬ n_head ∣ n_embd) :
    Block.init n_embd n_head =
      Except.ok ⟨n_head, n_embd / n_head, n_embd / n_head * n_head, n_embd⟩ ∧
    n_embd / n_head * n_head < n_embd := by
  constructor
  · have hne : n_head ≠ 0 := Nat.pos_iff_ne_zero.mp h0
    simp [Block.init, MultiHeadAttention.init, hne]
  · rcases lt_or_eq_of_le (Nat.div_mul_le_self n_embd n_head) with h | h
    · exact h
    · exact absurd (Dvd.intro_left _ h) hnd

/-- C2, witness for the amended theorem at `n_embd = 5`, `n_head = 2`. -/
theorem block_init_silent_reduction_witness :
    ((0 : ℕ) < 2 ∧ ¬ (2 ∣ 5)) ∧
    (Block.init 5 2 = Except.ok ⟨2, 5 / 2, 5 / 2 * 2, 5⟩ ∧ 5 / 2 * 2 < 5) :=
  ⟨⟨by decide, by decide⟩,
    block_init_silent_reduction 5 2 (by decide) (by decide)⟩

/-- C7: the split point is `⌊0.9 · len⌋`, the train split has exactly that
length, the validation split has the complementary length, and the two
contiguous splits concatenate back to the full encoded corpus. -/
theorem split_partition (data : List ℕ) :
    (train_data data).length = Nat.floor ((0.9 : ℚ) * data.length) ∧
    (train_data data).length = splitIndex data.length ∧
    (val_data data).length = data.length - splitIndex data.length ∧
    train_data data ++ val_data data = data := by
  have hfloor : Nat.floor ((0.9 : ℚ) * data.length) = splitIndex data.length := by
    have h9 : (0.9 : ℚ) * (data.length : ℚ) =
        ((9 * data.length : ℕ) : ℚ) / ((10 : ℕ) : ℚ) := by
      push_cast
      norm_num
      ring
    rw [h9, Nat.floor_div_nat, Nat.floor_natCast, splitIndex]
  refine ⟨?_, ?_, ?_, ?_⟩
  · rw [hfloor]
    simp only [train_data, splitIndex, List.length_take]
    omega
  · simp only [train_data, splitIndex, List.length_take]
    omega
  · simp only [val_data, List.length_drop]
  · simp only [train_data, val_data, List.take_append_drop]

/-- C9: `estimate_loss` returns the module with its parameters unchanged (and
the training flag restored to `true`), and `generate` leaves the whole module
state unchanged; in this model only `training_step`'s external optimizer
writes the parameters. -/
theorem eval_generate_frame {B eval_iters : ℕ} (s : ModelState V bs C nh hs)
    (batches : String → Fin eval_iters →
      (Fin B → Fin bs → Fin V) × (Fin B → Fin bs → Fin V))
    (sample : (Fin V → ℝ) → Fin V) (idx : List (Fin V)) (n : ℕ) :
    (estimate_loss s batches).2.params = s.params ∧
    (estimate_loss s batches).2.training = true ∧
    (generate_with_state s sample idx n).2 = s :=
  ⟨rfl, rfl, rfl⟩

/-- C10: any split name other than `"train"` — e.g. `"validation"` or a
misspelling — silently selects the validation data; `get_batch` behaves
exactly as it does for any other non-`"train"` name and raises nothing. -/
theorem get_batch_split_fallback (trainD valD : List ℕ) (block_size : ℕ)
    (split : String) (ix : List ℕ) (hsp : split ≠ "train") :
    batchData trainD valD split = valD ∧
    get_batch trainD valD block_size split ix =
      get_batch trainD valD block_size "val" ix := by
  have hv : batchData trainD valD split = valD := by
    simp only [batchData]
    exact if_neg hsp
  have hv2 : batchData trainD valD "val" = valD := by
    simp only [batchData]
    exact if_neg (by decide)
  refine ⟨hv, ?_⟩
  simp only [get_batch, hv, hv2]

/-- C10, witness at the concrete split name `"validation"`. -/
theorem get_batch_split_fallback_witness :
    ("validation" ≠ "train") ∧
    (batchData [1, 2, 3] [4, 5, 6] "validation" = [4, 5, 6] ∧
     get_batch [1, 2, 3] [4, 5, 6] 1 "validation" [0] =
       get_batch [1, 2, 3] [4, 5, 6] 1 "val" [0]) :=
  ⟨by decide,
    get_batch_split_fallback [1, 2, 3] [4, 5, 6] 1 "validation" [0] (by decide)⟩

/-- The vocabulary `chars` contains exactly the symbols of the corpus. -/
theorem mem_charsOf {text : List Char} {c : Char} :
    c ∈ charsOf text ↔ c ∈ text := by
  simp [charsOf, List.mem_mergeSort, List.mem_dedup]

/-- C4: for every string built only from symbols occurring in the corpus
(equivalently, in the vocabulary), decoding its encoding succeeds and
returns the string unchanged. -/
theorem tokenizer_round_trip (text s : List Char)
    (h : ∀ c ∈ s, c ∈ text) :
    (encode text s).bind (decode text) = some s := by
  induction s with
  | nil => simp [encode, decode]
  | cons c cs ih =>
    have hc : c ∈ charsOf text := mem_charsOf.mpr (h c (List.mem_cons_self c cs))
    have hcs : ∀ a ∈ cs, a ∈ text := fun a ha =>
      h a (List.mem_cons_of_mem c ha)
    obtain ⟨l, hE, hD⟩ : ∃ l, encode text cs = some l ∧
        decode text l = some cs := by
      have hih := ih hcs
      cases hE : encode text cs with
      | none => rw [hE] at hih; simp at hih
      | some l =>
        rw [hE] at hih
        simp only [Option.some_bind] at hih
        exact ⟨l, rfl, hih⟩
    have hstoi : stoi text c = some ((charsOf text).indexOf c) := by
      simp [stoi, hc]
    have hitos : itos text ((charsOf text).indexOf c) = some c := by
      simpa [itos] using List.indexOf_get? hc
    simp [encode, decode, hstoi, hE, hitos, hD]

/-- C4, witness on the corpus `"aba"` and the string `"bab"`. -/
theorem tokenizer_round_trip_witness :
    (∀ c ∈ (['b', 'a', 'b'] : List Char), c ∈ (['a', 'b', 'a'] : List Char)) ∧
    (encode ['a', 'b', 'a'] ['b', 'a', 'b']).bind (decode ['a', 'b', 'a']) =
      some ['b', 'a', 'b'] :=
  ⟨by decide, tokenizer_round_trip ['a', 'b', 'a'] ['b', 'a', 'b'] (by decide)⟩

/-- C6: both returned batches have `batch_size` rows; every row pair comes
from an offset `o` in `[0, split_length - block_size)` (the range
`torch.randint` draws from), the rows have length `block_size`, and position
`j` of the input row is `data[o+j]` while position `j` of the target row is
`data[o+j+1]`. -/
theorem get_batch_spec (trainD valD : List ℕ) (block_size batch_size : ℕ)
    (split : String) (ix : List ℕ)
    (hlen : ix.length = batch_size)
    (hix : ∀ o ∈ ix, o < (batchData trainD valD split).length - block_size) :
    (get_batch trainD valD block_size split ix).1.length = batch_size ∧
    (get_batch trainD valD block_size split ix).2.length = batch_size ∧
    ∀ (r : ℕ) (xr yr : List ℕ),
      (get_batch trainD valD block_size split ix).1[r]? = some xr →
      (get_batch trainD valD block_size split ix).2[r]? = some yr →
      ∃ o, o < (batchData trainD valD split).length - block_size ∧
        xr.length = block_size ∧ yr.length = block_size ∧
        ∀ j < block_size,
          xr[j]? = (batchData trainD valD split)[o + j]? ∧
          yr[j]? = (batchData trainD valD split)[o + j + 1]? := by
  refine ⟨by simp [get_batch, hlen], by simp [get_batch, hlen], ?_⟩
  intro r xr yr hx hy
  simp only [get_batch, List.getElem?_map] at hx hy
  cases hor : ix[r]? with
  | none => rw [hor] at hx; simp at hx
  | some o =>
    rw [hor] at hx hy
    simp only [Option.map_some'] at hx hy
    have hob := hix o (List.getElem?_mem hor)
    have hx2 : ((batchData trainD valD split).drop o).take block_size = xr :=
      Option.some_inj.mp hx
    have hy2 :
        ((batchData trainD valD split).drop (o + 1)).take block_size = yr :=
      Option.some_inj.mp hy
    subst hx2
    subst hy2
    refine ⟨o, hob, ?_, ?_, ?_⟩
    · simp only [List.length_take, List.length_drop]
      omega
    · simp only [List.length_take, List.length_drop]
      omega
    · intro j hj
      have harith : o + 1 + j = o + j + 1 := by omega
      constructor
      · rw [List.getElem?_take_of_lt hj, List.getElem?_drop]
      · rw [List.getElem?_take_of_lt hj, List.getElem?_drop, harith]

/-- C6, witness: corpus `[7, 8, 9, 10]` as the train split, `block_size = 2`,
offsets `[0, 1]`. -/
theorem get_batch_spec_witness :
    (([0, 1] : List ℕ).length = 2 ∧
      ∀ o ∈ ([0, 1] : List ℕ),
        o < (batchData [7, 8, 9, 10] [] "train").length - 2) ∧
    ((get_batch [7, 8, 9, 10] [] 2 "train" [0, 1]).1.length = 2 ∧
     (get_batch [7, 8, 9, 10] [] 2 "train" [0, 1]).2.length = 2 ∧
     ∀ (r : ℕ) (xr yr : List ℕ),
       (get_batch [7, 8, 9, 10] [] 2 "train" [0, 1]).1[r]? = some xr →
       (get_batch [7, 8, 9, 10] [] 2 "train" [0, 1]).2[r]? = some yr →
       ∃ o, o < (batchData [7, 8, 9, 10] [] "train").length - 2 ∧
         xr.length = 2 ∧ yr.length = 2 ∧
         ∀ j < 2,
           xr[j]? = (batchData [7, 8, 9, 10] [] "train")[o + j]? ∧
           yr[j]? = (batchData [7, 8, 9, 10] [] "train")[o + j + 1]?) :=
  ⟨⟨by decide, by decide⟩,
    get_batch_spec [7, 8, 9, 10] [] 2 2 "train" [0, 1] (by decide) (by decide)⟩

/-- Helper: a future (masked) position carries softmax weight exactly 0,
because its entry in the masked affinity matrix is `-∞` and `exp(-∞) = 0`. -/
theorem weiSoft_zero_of_lt {T : ℕ} (p : HeadParams C hs)
    (x : Fin T → Fin C → ℝ) {i j : Fin T} (hij : (i : ℕ) < (j : ℕ)) :
    Head.weiSoft p x i j = 0 := by
  have hji : ¬ ((j : ℕ) ≤ (i : ℕ)) := by omega
  have hmask : Head.weiMasked p x i j = none := by
    simp [Head.weiMasked, tril, hji]
  rw [Head.weiSoft, hmask]
  simp [expOf]

/-- C1: in a single attention head on an input of length `T ≤ block_size`,
the post-softmax attention weight from query position `i` to any key position
`j > i` is exactly `0`, and consequently every output position `i` is the
weighted sum of the value vectors at positions `≤ i` only. -/
theorem head_causal_mask {T : ℕ} (p : HeadParams C hs) (block_size : ℕ)
    (hT : T ≤ block_size) (x : Fin T → Fin C → ℝ) (i j : Fin T)
    (hij : (i : ℕ) < (j : ℕ)) :
    Head.weiSoft p x i j = 0 ∧
    ∀ u : Fin hs, Head.forward p x i u =
      ∑ s ∈ Finset.univ.filter (fun s : Fin T => (s : ℕ) ≤ (i : ℕ)),
        Head.weiSoft p x i s * linearNB p.value (x s) u := by
  refine ⟨weiSoft_zero_of_lt p x hij, fun u => ?_⟩
  have hz : ∀ s ∈ Finset.univ,
      s ∉ Finset.univ.filter (fun s : Fin T => (s : ℕ) ≤ (i : ℕ)) →
      Head.weiSoft p x i s * linearNB p.value (x s) u = 0 := by
    intro s _ hns
    simp only [Finset.mem_filter, Finset.mem_univ, true_and, not_le] at hns
    rw [weiSoft_zero_of_lt p x hns, zero_mul]
  simp only [Head.forward]
  exact (Finset.sum_subset (Finset.filter_subset _ _) hz).symm

/-- C1, witness at `T = block_size = 2`, zero weights, `i = 0 < 1 = j`. -/
theorem head_causal_mask_witness :
    ((2 : ℕ) ≤ 2 ∧ (((0 : Fin 2) : ℕ) < ((1 : Fin 2) : ℕ))) ∧
    (Head.weiSoft hZero x2 0 1 = 0 ∧
     ∀ u : Fin 1, Head.forward hZero x2 0 u =
       ∑ s ∈ Finset.univ.filter (fun s : Fin 2 => (s : ℕ) ≤ ((0 : Fin 2) : ℕ)),
         Head.weiSoft hZero x2 0 s * linearNB hZero.value (x2 s) u) :=
  ⟨⟨by decide, by decide⟩,
    head_causal_mask hZero 2 (by decide) x2 0 1 (by decide)⟩

/-- C5, counterexample: on the empty prompt (`T0 = 0`, a shape the claim
admits) with one new token requested, `generate` hits `logits[:, -1, :]` on a
size-0 time dimension and faults (`none`) instead of returning a sequence of
length `T0 + n = 1`. -/
theorem generate_empty_prompt_cex :
    GPTLanguageModel.generate pZero sample0 [] 1 = none := by
  rfl

/-- C5, amended: for every nonempty prompt (and positive context length),
`generate` succeeds, the result has length `idx.length + n`, and the prompt
is an exact prefix of the result. -/
theorem generate_keeps_prompt (p : GPTParams V bs C nh hs)
    (sample : (Fin V → ℝ) → Fin V) (idx : List (Fin V)) (n : ℕ)
    (hbs : 0 < bs) (hne : idx ≠ []) :
    ∃ out, GPTLanguageModel.generate p sample idx n = some out ∧
      out.length = idx.length + n ∧ idx <+: out := by
  induction n generalizing idx hne with
  | zero => exact ⟨idx, rfl, by simp, List.prefix_rfl⟩
  | succ n ih =>
    have hpos : 0 < (idx_cond bs idx).length := by
      have h1 : 0 < idx.length := List.length_pos.mpr hne
      simp only [idx_cond, List.length_drop]
      omega
    have hstep : GPTLanguageModel.generate p sample idx (n + 1) =
        (GPTLanguageModel.genStep p sample (idx_cond bs idx)
          (by simp only [idx_cond, List.length_drop]; omega)).bind
        fun tok => GPTLanguageModel.generate p sample (idx ++ [tok]) n := rfl
    rw [hstep, GPTLanguageModel.genStep, dif_pos hpos, Option.some_bind]
    obtain ⟨out, hgen, hlen, hpre⟩ :=
      ih _ (List.append_ne_nil_of_left_ne_nil hne _)
    refine ⟨out, hgen, ?_, (List.prefix_append idx _).trans hpre⟩
    simp only [List.length_append, List.length_cons, List.length_nil] at hlen
    omega

/-- C5, witness for the amended theorem on the one-token prompt `[0]`. -/
theorem generate_keeps_prompt_witness :
    ((0 : ℕ) < 1 ∧ ([(0 : Fin 1)] : List (Fin 1)) ≠ []) ∧
    ∃ out, GPTLanguageModel.generate pZero sample0 [0] 1 = some out ∧
      out.length = [(0 : Fin 1)].length + 1 ∧ [(0 : Fin 1)] <+: out :=
  ⟨⟨by decide, by decide⟩,
    generate_keeps_prompt pZero sample0 [0] 1 (by decide) (by decide)⟩

/-- C8: each iteration of the generation loop feeds `genStep` (forward pass,
softmax, sampling) exactly the crop `idx_cond`, which is a suffix of the
running sequence of length `min block_size idx.length`; when the sequence is
longer than the context length, only the last `block_size` tokens condition
the next sample. -/
theorem generate_truncates_context (p : GPTParams V bs C nh hs)
    (sample : (Fin V → ℝ) → Fin V) (idx : List (Fin V)) (n : ℕ) :
    GPTLanguageModel.generate p sample idx (n + 1) =
      (GPTLanguageModel.genStep p sample (idx_cond bs idx)
          (by simp only [idx_cond, List.length_drop]; omega)).bind
        (fun tok => GPTLanguageModel.generate p sample (idx ++ [tok]) n) ∧
    (idx_cond bs idx).length = min bs idx.length ∧
    idx_cond bs idx <:+ idx ∧
    (bs ≤ idx.length → (idx_cond bs idx).length = bs) := by
  refine ⟨rfl, ?_, List.drop_suffix _ _, ?_⟩
  · simp only [idx_cond, List.length_drop]
    omega
  · intro h
    simp only [idx_cond, List.length_drop]
    omega

/-- C8, witness at the concrete prompt `[0]` with `block_size = 1`. -/
theorem generate_truncates_context_witness :
    (GPTLanguageModel.generate pZero sample0 [0] (0 + 1) =
      (GPTLanguageModel.genStep pZero sample0 (idx_cond 1 [(0 : Fin 1)])
          (by simp only [idx_cond, List.length_drop]; omega)).bind
        (fun tok => GPTLanguageModel.generate pZero sample0 ([0] ++ [tok]) 0) ∧
    (idx_cond 1 [(0 : Fin 1)]).length = min 1 [(0 : Fin 1)].length ∧
    idx_cond 1 [(0 : Fin 1)] <:+ [(0 : Fin 1)] ∧
    (1 ≤ [(0 : Fin 1)].length → (idx_cond 1 [(0 : Fin 1)]).length = 1)) :=
  generate_truncates_context pZero sample0 [0] 0

/-- C3, counterexample: with a target batch supplied (here `B = 2`, `T = 1`,
`V = 1`), the returned logits value is the rank-2 `view(B*T, C)` tensor, not
a rank-3 `(B, T, vocab_size)` tensor. -/
theorem forward_targets_rank2_cex :
    (∃ l, (GPTLanguageModel.forward pZero (le_refl 1) idx2 (some idx2)).1 =
        ReturnedLogits.rank2 l ∧ l.length = 2 * 1) ∧
    ∀ m, (GPTLanguageModel.forward pZero (le_refl 1) idx2 (some idx2)).1 ≠
        ReturnedLogits.rank3 m := by
  constructor
  · refine ⟨(GPTLanguageModel.logitsTensor pZero (le_refl 1) idx2).flatten,
      rfl, ?_⟩
    simp [GPTLanguageModel.logitsTensor, List.length_flatten, List.map_ofFn]
  · intro m h
    rw [show (GPTLanguageModel.forward pZero (le_refl 1) idx2 (some idx2)).1 =
        ReturnedLogits.rank2
          (GPTLanguageModel.logitsTensor pZero (le_refl 1) idx2).flatten
      from rfl] at h
    exact ReturnedLogits.noConfusion h

/-- C3, amended: with `targets=None` the returned logits tensor has shape
`(B, T, vocab_size)` and the loss is `None`; with targets supplied the
returned logits are reshaped to `(B*T, vocab_size)` and the returned
cross-entropy loss is a well-defined (finite) non-negative real number. -/
theorem forward_shape_loss (p : GPTParams V bs C nh hs) {B T : ℕ}
    (hT : T ≤ bs) (idx targets : Fin B → Fin T → Fin V) :
    GPTLanguageModel.forward p hT idx none =
      (ReturnedLogits.rank3 (GPTLanguageModel.logitsTensor p hT idx), none) ∧
    (GPTLanguageModel.logitsTensor p hT idx).length = B ∧
    (∀ row ∈ GPTLanguageModel.logitsTensor p hT idx, row.length = T ∧
      ∀ e ∈ row, e.length = V) ∧
    GPTLanguageModel.forward p hT idx (some targets) =
      (ReturnedLogits.rank2 (GPTLanguageModel.logitsTensor p hT idx).flatten,
       some (GPTLanguageModel.loss p hT idx targets)) ∧
    (GPTLanguageModel.logitsTensor p hT idx).flatten.length = B * T ∧
    (∀ row ∈ (GPTLanguageModel.logitsTensor p hT idx).flatten,
      row.length = V) ∧
    0 ≤ GPTLanguageModel.loss p hT idx targets := by
  refine ⟨rfl, by simp [GPTLanguageModel.logitsTensor], ?_, rfl, ?_, ?_, ?_⟩
  · intro row hrow
    simp only [GPTLanguageModel.logitsTensor, List.mem_ofFn,
      Set.mem_range] at hrow
    obtain ⟨b, rfl⟩ := hrow
    refine ⟨by simp, ?_⟩
    intro e he
    simp only [List.mem_ofFn, Set.mem_range] at he
    obtain ⟨t, rfl⟩ := he
    simp
  · simp [GPTLanguageModel.logitsTensor, List.length_flatten, List.map_ofFn,
      Function.comp_def, List.sum_ofFn, Finset.sum_const, Finset.card_univ,
      mul_comm]
  · intro row hrow
    simp only [GPTLanguageModel.logitsTensor, List.mem_flatten] at hrow
    obtain ⟨l, hl, hrow⟩ := hrow
    simp only [List.mem_ofFn, Set.mem_range] at hl
    obtain ⟨b, rfl⟩ := hl
    simp only [List.mem_ofFn, Set.mem_range] at hrow
    obtain ⟨t, rfl⟩ := hrow
    simp
  · rw [GPTLanguageModel.loss]
    apply div_nonneg _ (by positivity)
    apply Finset.sum_nonneg
    intro b _
    apply Finset.sum_nonneg
    intro t _
    have h1 : Real.exp (GPTLanguageModel.logits p hT idx b t (targets b t)) ≤
        ∑ v, Real.exp (GPTLanguageModel.logits p hT idx b t v) :=
      Finset.single_le_sum (fun v _ => (Real.exp_pos _).le) (Finset.mem_univ _)
    have h2 : GPTLanguageModel.logits p hT idx b t (targets b t) ≤
        Real.log (∑ v, Real.exp (GPTLanguageModel.logits p hT idx b t v)) := by
      calc GPTLanguageModel.logits p hT idx b t (targets b t)
          = Real.log (Real.exp
              (GPTLanguageModel.logits p hT idx b t (targets b t))) :=
            (Real.log_exp _).symm
        _ ≤ _ := Real.log_le_log (Real.exp_pos _) h1
    linarith

/-- C3, witness for the amended theorem at the minimal configuration. -/
theorem forward_shape_loss_witness :
    ((1 : ℕ) ≤ 1) ∧
    (GPTLanguageModel.forward pZero (le_refl 1) idx0 none =
      (ReturnedLogits.rank3
        (GPTLanguageModel.logitsTensor pZero (le_refl 1) idx0), none) ∧
    (GPTLanguageModel.logitsTensor pZero (le_refl 1) idx0).length = 1 ∧
    (∀ row ∈ GPTLanguageModel.logitsTensor pZero (le_refl 1) idx0,
      row.length = 1 ∧ ∀ e ∈ row, e.length = 1) ∧
    GPTLanguageModel.forward pZero (le_refl 1) idx0 (some idx0) =
      (ReturnedLogits.rank2
        (GPTLanguageModel.logitsTensor pZero (le_refl 1) idx0).flatten,
       some (GPTLanguageModel.loss pZero (le_refl 1) idx0 idx0)) ∧
    (GPTLanguageModel.logitsTensor pZero (le_refl 1) idx0).flatten.length =
      1 * 1 ∧
    (∀ row ∈ (GPTLanguageModel.logitsTensor pZero (le_refl 1) idx0).flatten,
      row.length = 1) ∧
    0 ≤ GPTLanguageModel.loss pZero (le_refl 1) idx0 idx0) :=
  ⟨by decide, forward_shape_loss pZero (le_refl 1) idx0 idx0⟩

end GPT
